import Mathlib

/-!
Verification development for the parallel-tempered ensemble sampler
(`emcee/ptsampler.py`).  The Python source is shallowly embedded:

* the replica-exchange engine `PTSampler._temperature_swaps` becomes a
  pure state transformer over `SwapState`, with the random draws of each
  trial (the two walker indices and the logarithm of the uniform variate)
  supplied as oracle inputs;
* the tempered posterior `PTPost.__call__` becomes `PTPost_call` over a
  type of log-values extended with negative infinity;
* the ladder builder `PTSampler.exponential_beta_ladder` becomes a real
  valued list, with `linspace` embedding `np.linspace`;
* the chain store of `PTSampler.sample` becomes `sample_call` /
  `sample_calls`, where one whole loop iteration (advance every rung,
  then swap) is abstracted as a state step `step : σ → σ` (any
  randomness can be carried inside `σ`);
* the in-place mutation of the caller's arrays by `sample` is embedded
  with an explicit reference store `RefStore`;
* the statement order of the loop body of `sample` is embedded as the
  event trace `iterationTrace`.
-/

/-- The random data consumed by one swap trial of
`PTSampler._temperature_swaps`: the walker index `ii = nr.randint(nwalkers)`
drawn for rung `i`, the walker index `jj = nr.randint(nwalkers)` drawn for
rung `i-1`, and `logu`, the value `np.log(nr.rand())` that the trial would
compare against `paccept`. -/
structure TrialDraw where
  ii : Nat
  jj : Nat
  logu : ℚ
deriving DecidableEq

/-- The mutable state touched by `PTSampler._temperature_swaps`: the walker
positions `p[t][w]`, the log-posterior matrix `lnprob`, the log-likelihood
matrix `logl`, and the swap counters `nswap` / `nswap_accepted` (per rung). -/
structure SwapState (α : Type) where
  p : Nat → Nat → α
  lnprob : Nat → Nat → ℚ
  logl : Nat → Nat → ℚ
  nswap : Nat → Nat
  nswap_accepted : Nat → Nat

/-- One `counter[i] += 1` increment of a per-rung counter array. -/
def bump (f : Nat → Nat) (i : Nat) : Nat → Nat :=
  fun j => if j = i then f j + 1 else f j

/-- One `a[r][w] = v` element assignment of a two-index array. -/
def upd2 {β : Type} (f : Nat → Nat → β) (r w : Nat) (v : β) : Nat → Nat → β :=
  fun a b => if a = r ∧ b = w then v else f a b

/-- One swap trial at boundary `(i, i-1)`, following the body of the inner
`for j in range(self.nwalkers)` loop of `PTSampler._temperature_swaps`
(ptsampler.py lines 227-250): increment both attempted counters, compute
`paccept = dbeta*(logl[i,ii] - logl[i-1,jj])`, and on
`paccept > 0 or np.log(nr.rand()) < paccept` increment both accepted
counters and exchange position, log-likelihood and adjusted log-posterior
between slots `(i, ii)` and `(i-1, jj)`. -/
def doTrial {α : Type} (dbeta : ℚ) (i : Nat) (d : TrialDraw) (s : SwapState α) :
    SwapState α :=
  let nswap1 := bump (bump s.nswap i) (i - 1)
  let paccept := dbeta * (s.logl i d.ii - s.logl (i - 1) d.jj)
  if paccept > 0 ∨ d.logu < paccept then
    let ptemp := s.p i d.ii
    let logltemp := s.logl i d.ii
    let lnprobtemp := s.lnprob i d.ii
    let p1 := upd2 s.p i d.ii (s.p (i - 1) d.jj)
    let logl1 := upd2 s.logl i d.ii (s.logl (i - 1) d.jj)
    let lnprob1 := upd2 s.lnprob i d.ii
      (s.lnprob (i - 1) d.jj - dbeta * logl1 (i - 1) d.jj)
    let p2 := upd2 p1 (i - 1) d.jj ptemp
    let logl2 := upd2 logl1 (i - 1) d.jj logltemp
    let lnprob2 := upd2 lnprob1 (i - 1) d.jj (lnprobtemp + dbeta * logltemp)
    { p := p2, lnprob := lnprob2, logl := logl2, nswap := nswap1,
      nswap_accepted := bump (bump s.nswap_accepted i) (i - 1) }
  else
    { s with nswap := nswap1 }

/-- The boundary sweep: `nwalkers` trials at boundary `(i, i-1)`, with
`dbeta = betas[i-1] - betas[i]`; the list `draws` supplies the random data
of the successive trials. -/
def boundarySweep {α : Type} (betas : Nat → ℚ) (i : Nat) (draws : List TrialDraw)
    (s : SwapState α) : SwapState α :=
  draws.foldl (fun t d => doTrial (betas (i - 1) - betas i) i d t) s

/-- The iteration order of Python `range(m, 0, -1)`: the list
`[m, m-1, ..., 1]`. -/
def rangeDown : Nat → List Nat
  | 0 => []
  | n + 1 => (n + 1) :: rangeDown n

/-- `PTSampler._temperature_swaps` (ptsampler.py lines 215-252): sweep the
boundaries `i = ntemps-1, ..., 1` in that order, performing one boundary
sweep each. -/
def temperature_swaps {α : Type} (betas : Nat → ℚ) (ntemps : Nat)
    (draws : Nat → List TrialDraw) (s : SwapState α) : SwapState α :=
  (rangeDown (ntemps - 1)).foldl (fun t i => boundarySweep betas i (draws i) t) s

/-- A sequence of `_temperature_swaps` calls, each with its own random
draws. -/
def runSwaps {α : Type} (betas : Nat → ℚ) (ntemps : Nat)
    (calls : List (Nat → List TrialDraw)) (s : SwapState α) : SwapState α :=
  calls.foldl (fun t dr => temperature_swaps betas ntemps dr t) s

/-- The sampler state right after `PTSampler.__init__`: both counter arrays
are all zero (ptsampler.py lines 100-101). -/
def initState {α : Type} (p0 : Nat → Nat → α) (lnprob0 logl0 : Nat → Nat → ℚ) :
    SwapState α :=
  { p := p0, lnprob := lnprob0, logl := logl0,
    nswap := fun _ => 0, nswap_accepted := fun _ => 0 }

/-- `PTSampler.tswap_acceptance_fraction`: elementwise
`nswap_accepted / nswap`. -/
def tswap_acceptance_fraction {α : Type} (s : SwapState α) : Nat → ℚ :=
  fun j => (s.nswap_accepted j : ℚ) / (s.nswap j : ℚ)

/-- A log-value: either negative infinity or a finite value.  This embeds
the floating-point log-likelihood / log-prior values of `PTPost`, where the
only non-finite value the code tests for is `float('-inf')`. -/
inductive LogVal where
  | negInf : LogVal
  | fin : ℚ → LogVal
deriving DecidableEq

/-- Addition of log-values; negative infinity absorbs. -/
def LogVal.add : LogVal → LogVal → LogVal
  | LogVal.negInf, _ => LogVal.negInf
  | LogVal.fin _, LogVal.negInf => LogVal.negInf
  | LogVal.fin a, LogVal.fin b => LogVal.fin (a + b)

/-- Scaling of a log-value by an inverse temperature.  The ladder of the
sampler only produces positive `beta`, for which IEEE multiplication also
sends negative infinity to negative infinity. -/
def LogVal.smul (c : ℚ) : LogVal → LogVal
  | LogVal.negInf => LogVal.negInf
  | LogVal.fin a => LogVal.fin (c * a)

/-- `PTPost.__call__` (ptsampler.py lines 29-50): evaluate the log-prior;
if it is negative infinity return `(lp, lp)` at once, otherwise evaluate
the log-likelihood `ll` and return `(beta*ll + lp, ll)`. -/
def PTPost_call {X : Type} (logl logp : X → LogVal) (beta : ℚ) (x : X) :
    LogVal × LogVal :=
  let lp := logp x
  if lp = LogVal.negInf then (lp, lp)
  else
    let ll := logl x
    (LogVal.add (LogVal.smul beta ll) lp, ll)

/-- `np.linspace(a, b, n)`: `n` evenly spaced points from `a` to `b`
inclusive; entry `k` is `a + (b - a) * k / (n - 1)` (for `n = 1` numpy
returns `[a]`, which the formula also gives since division by zero yields
zero here). -/
noncomputable def linspace (a b : ℝ) (n : Nat) : List ℝ :=
  (List.range n).map (fun k : Nat => a + (b - a) * (k : ℝ) / ((n : ℝ) - 1))

/-- `PTSampler.exponential_beta_ladder` (ptsampler.py lines 109-112):
`np.exp(np.linspace(0, -(ntemps-1)*0.5*np.log(2), ntemps))`. -/
noncomputable def exponential_beta_ladder (ntemps : Nat) : List ℝ :=
  (linspace 0 (-((ntemps : ℝ) - 1) * 0.5 * Real.log 2) ntemps).map Real.exp

/-- The iteration loop of `PTSampler.sample` (ptsampler.py lines 197-213),
restricted to its effect on the chain buffer.  One whole iteration
(advance every rung one ensemble step, then `_temperature_swaps`) is
abstracted as `step : σ → σ`; `snap` projects out of the state the triple
`(p, lnprob, logl)` that gets stored.  The buffer holds `none` in the
zero-initialised, not yet recorded slots.  Arguments after `thin`: the
remaining iteration count, the current iteration index `i`, the state, the
buffer, and the write cursor `isave`. -/
def runIters {σ α : Type} (step : σ → σ) (snap : σ → α) (thin : Nat) :
    Nat → Nat → σ → List (Option α) → Nat → List (Option α) × σ
  | 0, _, s, buf, _ => (buf, s)
  | n + 1, i, s, buf, isave =>
    let s1 := step s
    if (i + 1) % thin = 0 then
      runIters step snap thin n (i + 1) s1 (buf.set isave (some (snap s1))) (isave + 1)
    else
      runIters step snap thin n (i + 1) s1 buf isave

/-- One `sample(...)` call with `storechain=True` (ptsampler.py lines
182-213): extend the chain buffer by `nsave = iterations / thin`
zero-initialised slots (a fresh buffer when the chain was empty), set the
write cursor to the previous stored length, and run the iteration loop. -/
def sample_call {σ α : Type} (step : σ → σ) (snap : σ → α)
    (iterations thin : Nat) (s : σ) (chain : List (Option α)) :
    List (Option α) × σ :=
  let nsave := iterations / thin
  let buf := chain ++ List.replicate nsave none
  runIters step snap thin iterations 0 s buf chain.length

/-- A sequence of `sample` calls; each list entry gives that call's
`(iterations, thin)`. -/
def sample_calls {σ α : Type} (step : σ → σ) (snap : σ → α)
    (calls : List (Nat × Nat)) (s : σ) (chain : List (Option α)) :
    List (Option α) × σ :=
  calls.foldl (fun bs c => sample_call step snap c.1 c.2 bs.2 bs.1) (chain, s)

/-- Write a list of values into consecutive slots of a buffer, starting at
index `k`. -/
def writeAll {α : Type} : List (Option α) → Nat → List α → List (Option α)
  | buf, _, [] => buf
  | buf, k, x :: xs => writeAll (buf.set k (some x)) (k + 1) xs

/-- The values recorded by the iteration loop during `n` iterations
starting at iteration index `i` in state `s`. -/
def recordedVals {σ α : Type} (step : σ → σ) (snap : σ → α) (thin : Nat) :
    Nat → σ → Nat → List α
  | _, _, 0 => []
  | i, s, n + 1 =>
    (if (i + 1) % thin = 0 then [snap (step s)] else [])
      ++ recordedVals step snap thin (i + 1) (step s) n

/-- The externally visible events of one iteration of `PTSampler.sample`:
advancing one rung, the temperature-swap call, recording into the chain,
and yielding. -/
inductive SampleEv where
  | adv : Nat → SampleEv
  | exch : SampleEv
  | record : SampleEv
  | yld : SampleEv
deriving DecidableEq

/-- The event trace of the body of the `for i in range(iterations)` loop of
`PTSampler.sample` (ptsampler.py lines 197-213), in source statement order:
the inner loop over `enumerate(self.samplers)` advances rungs `0, ...,
ntemps-1`, then `_temperature_swaps` runs, then the `(i+1) % thin == 0` and
`storechain` guards decide whether the state is recorded, then the triple
is yielded. -/
def iterationTrace (ntemps : Nat) (storechain : Bool) (thin i : Nat) :
    List SampleEv :=
  ((List.range ntemps).map SampleEv.adv) ++ [SampleEv.exch]
    ++ (if (i + 1) % thin = 0 then
          (if storechain then [SampleEv.record] else []) else [])
    ++ [SampleEv.yld]

/-- The event trace of a whole `sample(...)` call. -/
def sampleTrace (ntemps iterations thin : Nat) (storechain : Bool) :
    List SampleEv :=
  (List.range iterations).flatMap (fun i => iterationTrace ntemps storechain thin i)

/-- A store of array objects addressed by references, embedding the Python
heap as far as `PTSampler.sample` touches it: numpy array assignment
`a[...] = v` writes through the reference without rebinding it. -/
structure RefStore (V : Type) where
  mem : Nat → V

/-- Overwrite the array behind reference `r` with value `v`. -/
def RefStore.write {V : Type} (σ : RefStore V) (r : Nat) (v : V) : RefStore V :=
  ⟨fun a => if a = r then v else σ.mem a⟩

/-- One iteration of `PTSampler.sample` seen through the heap (ptsampler.py
lines 197-204): read the arrays behind the references `rp`, `rl`, `rk`
bound to `p`, `lnprob`, `logl` (which alias the caller's `p0`, `lnprob0`,
`lnlike0` when all three were supplied), compute the advanced and swapped
triple, and write each component back in place through the same
references. -/
def sampleIterInPlace {V : Type} (stepFn : V × V × V → V × V × V)
    (rp rl rk : Nat) (σ : RefStore V) : RefStore V :=
  let nxt := stepFn (σ.mem rp, σ.mem rl, σ.mem rk)
  ((σ.write rp nxt.1).write rl nxt.2.1).write rk nxt.2.2

/-- `n` iterations of the in-place loop. -/
def sampleRunInPlace {V : Type} (stepFn : V × V × V → V × V × V)
    (rp rl rk : Nat) (σ : RefStore V) : Nat → RefStore V
  | 0 => σ
  | n + 1 => sampleIterInPlace stepFn rp rl rk (sampleRunInPlace stepFn rp rl rk σ n)

/-- The references yielded by the generator over `n` iterations: `yield p,
lnprob, logl` yields the very objects the loop mutates, so every yielded
triple is the same three references. -/
def sampleYields (rp rl rk : Nat) (n : Nat) : List (Nat × Nat × Nat) :=
  (List.range n).map (fun _ => (rp, rl, rk))

/-- The burn-in start index of
`PTSampler.thermodynamic_integration_log_evidence` (ptsampler.py line 328):
`istart = int(logls.shape[2]*fburnin) + 1`, where `S` is the number of
recorded steps; Python `int` truncates, which for the nonnegative product
is the floor. -/
def ti_istart (S : Nat) (fburnin : ℚ) : ℤ :=
  Int.floor ((S : ℚ) * fburnin) + 1

/-- A property preserved by every step of a fold is preserved by the whole
fold. -/
theorem foldl_preserves {β σ : Type} (P : σ → Prop) (f : σ → β → σ)
    (h : ∀ s b, P s → P (f s b)) :
    ∀ (l : List β) (s : σ), P s → P (l.foldl f s) := by
  intro l
  induction l with
  | nil => intro s hs; exact hs
  | cons b t ih => intro s hs; exact ih (f s b) (h s b hs)

/-- A bumped counter at the bumped index. -/
theorem bump_same (f : Nat → Nat) (i : Nat) : bump f i i = f i + 1 := by
  simp [bump]

/-- A bumped counter at any other index. -/
theorem bump_other (f : Nat → Nat) {i j : Nat} (h : j ≠ i) : bump f i j = f j := by
  simp [bump, h]

/-- Every swap trial increments the attempted counters of both adjacent
rungs, whatever the outcome. -/
theorem doTrial_nswap {α : Type} (dbeta : ℚ) (i : Nat) (d : TrialDraw)
    (s : SwapState α) :
    (doTrial dbeta i d s).nswap = bump (bump s.nswap i) (i - 1) := by
  simp only [doTrial]
  split <;> rfl

/-- An accepted swap trial increments the accepted counters of both
adjacent rungs. -/
theorem doTrial_accepted_counters {α : Type} (dbeta : ℚ) (i : Nat)
    (d : TrialDraw) (s : SwapState α)
    (hacc : dbeta * (s.logl i d.ii - s.logl (i - 1) d.jj) > 0
      ∨ d.logu < dbeta * (s.logl i d.ii - s.logl (i - 1) d.jj)) :
    (doTrial dbeta i d s).nswap_accepted
      = bump (bump s.nswap_accepted i) (i - 1) := by
  simp only [doTrial]
  rw [if_pos hacc]

/-- A rejected swap trial leaves the accepted counters unchanged. -/
theorem doTrial_rejected_counters {α : Type} (dbeta : ℚ) (i : Nat)
    (d : TrialDraw) (s : SwapState α)
    (hrej : ¬(dbeta * (s.logl i d.ii - s.logl (i - 1) d.jj) > 0
      ∨ d.logu < dbeta * (s.logl i d.ii - s.logl (i - 1) d.jj))) :
    (doTrial dbeta i d s).nswap_accepted = s.nswap_accepted := by
  simp only [doTrial]
  rw [if_neg hrej]

/-- One trial preserves the accepted-below-attempted counter invariant. -/
theorem doTrial_preserves_le {α : Type} (dbeta : ℚ) (i : Nat) (d : TrialDraw)
    (s : SwapState α) (h : ∀ j, s.nswap_accepted j ≤ s.nswap j) :
    ∀ j, (doTrial dbeta i d s).nswap_accepted j ≤ (doTrial dbeta i d s).nswap j := by
  intro j
  have hj := h j
  simp only [doTrial]
  split
  · simp only [bump]
    split_ifs <;> omega
  · simp only [bump]
    split_ifs <;> omega

/-- C9: after any sequence of exchange calls started from the freshly
initialised sampler, every accepted counter is at most its attempted
counter, and every entry of `tswap_acceptance_fraction` with nonzero
denominator lies in the interval from 0 to 1. -/
theorem tswap_counters_and_fractions {α : Type} (betas : Nat → ℚ) (ntemps : Nat)
    (calls : List (Nat → List TrialDraw)) (p0 : Nat → Nat → α)
    (lnprob0 logl0 : Nat → Nat → ℚ) :
    (∀ j, (runSwaps betas ntemps calls (initState p0 lnprob0 logl0)).nswap_accepted j
        ≤ (runSwaps betas ntemps calls (initState p0 lnprob0 logl0)).nswap j)
    ∧ ∀ j, (runSwaps betas ntemps calls (initState p0 lnprob0 logl0)).nswap j ≠ 0 →
        0 ≤ tswap_acceptance_fraction
            (runSwaps betas ntemps calls (initState p0 lnprob0 logl0)) j
        ∧ tswap_acceptance_fraction
            (runSwaps betas ntemps calls (initState p0 lnprob0 logl0)) j ≤ 1 := by
  have inv : ∀ j, (runSwaps betas ntemps calls (initState p0 lnprob0 logl0)).nswap_accepted j
      ≤ (runSwaps betas ntemps calls (initState p0 lnprob0 logl0)).nswap j := by
    have base : ∀ j, (initState p0 lnprob0 logl0 : SwapState α).nswap_accepted j
        ≤ (initState p0 lnprob0 logl0 : SwapState α).nswap j := by
      intro j
      simp [initState]
    have htrial : ∀ (v : SwapState α) (dd : TrialDraw) (dbeta : ℚ) (i : Nat),
        (∀ j, v.nswap_accepted j ≤ v.nswap j) →
        ∀ j, (doTrial dbeta i dd v).nswap_accepted j ≤ (doTrial dbeta i dd v).nswap j :=
      fun v dd dbeta i hv => doTrial_preserves_le dbeta i dd v hv
    have hcall : ∀ (t : SwapState α) (dr : Nat → List TrialDraw),
        (∀ j, t.nswap_accepted j ≤ t.nswap j) →
        ∀ j, (temperature_swaps betas ntemps dr t).nswap_accepted j
          ≤ (temperature_swaps betas ntemps dr t).nswap j := by
      intro t dr ht
      refine foldl_preserves (fun u => ∀ j, u.nswap_accepted j ≤ u.nswap j)
        (fun u i => boundarySweep betas i (dr i) u) ?_ (rangeDown (ntemps - 1)) t ht
      intro u i hu
      exact foldl_preserves (fun v => ∀ j, v.nswap_accepted j ≤ v.nswap j)
        (fun v dd => doTrial (betas (i - 1) - betas i) i dd v)
        (fun v dd hv => htrial v dd _ i hv) (dr i) u hu
    exact foldl_preserves (fun t => ∀ j, t.nswap_accepted j ≤ t.nswap j)
      (fun t dr => temperature_swaps betas ntemps dr t) hcall calls
      (initState p0 lnprob0 logl0) base
  refine ⟨inv, ?_⟩
  intro j hj
  have hle := inv j
  have hpos : (0 : ℚ) < ((runSwaps betas ntemps calls (initState p0 lnprob0 logl0)).nswap j : ℚ) := by
    exact_mod_cast Nat.pos_of_ne_zero hj
  constructor
  · exact div_nonneg (Nat.cast_nonneg _) (Nat.cast_nonneg _)
  · exact (div_le_one hpos).mpr (by exact_mod_cast hle)

/-- Concrete instance of the counter and fraction bounds. -/
theorem tswap_counters_and_fractions_witness :
    (runSwaps (fun _ => 0) 2 [fun _ => [⟨0, 0, -1⟩]]
        (initState (fun _ _ => (0 : ℚ)) (fun _ _ => 0) (fun _ _ => 0))).nswap_accepted 1
      ≤ (runSwaps (fun _ => 0) 2 [fun _ => [⟨0, 0, -1⟩]]
        (initState (fun _ _ => (0 : ℚ)) (fun _ _ => 0) (fun _ _ => 0))).nswap 1 :=
  (tswap_counters_and_fractions (fun _ => 0) 2 [fun _ => [⟨0, 0, -1⟩]]
    (fun _ _ => (0 : ℚ)) (fun _ _ => 0) (fun _ _ => 0)).1 1

/-- C8: at a boundary whose two rungs carry the same inverse temperature
(`dbeta = 0`), every swap trial is accepted no matter what the
log-likelihood values are, because `paccept = 0` fails `paccept > 0` but
the logarithm of a uniform draw in the open unit interval is negative and
so satisfies `log(u) < paccept`; consequently a whole boundary sweep
accepts all of its trials. -/
theorem dbeta_zero_always_accepts {α : Type} (betas : Nat → ℚ) (i : Nat)
    (hi : 1 ≤ i) (hb : betas (i - 1) = betas i) :
    (∀ (d : TrialDraw) (s : SwapState α), d.logu < 0 →
      (doTrial (betas (i - 1) - betas i) i d s).nswap_accepted i
          = s.nswap_accepted i + 1
      ∧ (doTrial (betas (i - 1) - betas i) i d s).nswap_accepted (i - 1)
          = s.nswap_accepted (i - 1) + 1)
    ∧ ∀ (draws : List TrialDraw) (s : SwapState α),
        (∀ d ∈ draws, d.logu < 0) →
        (boundarySweep betas i draws s).nswap_accepted i
            = s.nswap_accepted i + draws.length
        ∧ (boundarySweep betas i draws s).nswap_accepted (i - 1)
            = s.nswap_accepted (i - 1) + draws.length := by
  have hz : betas (i - 1) - betas i = 0 := by rw [hb, sub_self]
  have hne : i - 1 ≠ i := by omega
  have hne2 : i ≠ i - 1 := by omega
  have trial : ∀ (d : TrialDraw) (s : SwapState α), d.logu < 0 →
      (doTrial (betas (i - 1) - betas i) i d s).nswap_accepted i
          = s.nswap_accepted i + 1
      ∧ (doTrial (betas (i - 1) - betas i) i d s).nswap_accepted (i - 1)
          = s.nswap_accepted (i - 1) + 1 := by
    intro d s hu
    have hacc : (betas (i - 1) - betas i) * (s.logl i d.ii - s.logl (i - 1) d.jj) > 0
        ∨ d.logu < (betas (i - 1) - betas i) * (s.logl i d.ii - s.logl (i - 1) d.jj) := by
      right
      rw [hz, zero_mul]
      exact hu
    rw [doTrial_accepted_counters _ _ _ _ hacc]
    constructor
    · rw [bump_other _ hne2, bump_same]
    · rw [bump_same, bump_other _ hne]
  refine ⟨trial, ?_⟩
  intro draws
  induction draws with
  | nil => intro s _; simp [boundarySweep]
  | cons d ds ih =>
    intro s hds
    have hstep := trial d s (hds d (List.mem_cons_self d ds))
    have hrest := ih (doTrial (betas (i - 1) - betas i) i d s)
      (fun e he => hds e (List.mem_cons_of_mem d he))
    have hsweep : boundarySweep betas i (d :: ds) s
        = boundarySweep betas i ds (doTrial (betas (i - 1) - betas i) i d s) := rfl
    rw [hsweep]
    constructor
    · rw [hrest.1, hstep.1, List.length_cons]; omega
    · rw [hrest.2, hstep.2, List.length_cons]; omega

/-- Concrete instance of the dbeta-zero acceptance guarantee. -/
theorem dbeta_zero_always_accepts_witness :
    (doTrial ((fun _ : Nat => (1 : ℚ)) 0 - (fun _ : Nat => (1 : ℚ)) 1) 1
        ⟨0, 0, -1⟩ (initState (fun _ _ => (0 : ℚ)) (fun _ _ => 0) (fun _ _ => 0))).nswap_accepted 1
      = (initState (fun _ _ => (0 : ℚ)) (fun _ _ => 0) (fun _ _ => 0)).nswap_accepted 1 + 1 :=
  ((dbeta_zero_always_accepts (fun _ => (1 : ℚ)) 1 (by decide) rfl).1
    ⟨0, 0, -1⟩ (initState (fun _ _ => (0 : ℚ)) (fun _ _ => 0) (fun _ _ => 0))
    (by norm_num)).1

/-- C2: an accepted swap trial at boundary `(i, i-1)` exchanges the two
chosen walkers' positions and log-likelihoods intact, stores at slot
`(i-1, jj)` the log-posterior the partner walker `ii` previously had at
rung `i` plus `dbeta` times that partner's previous log-likelihood, and
stores at slot `(i, ii)` the symmetric reflection with the minus sign. -/
theorem accepted_swap_exchanges_state {α : Type} (dbeta : ℚ) (i : Nat)
    (hi : 1 ≤ i) (d : TrialDraw) (s : SwapState α)
    (hacc : dbeta * (s.logl i d.ii - s.logl (i - 1) d.jj) > 0
      ∨ d.logu < dbeta * (s.logl i d.ii - s.logl (i - 1) d.jj)) :
    (doTrial dbeta i d s).p i d.ii = s.p (i - 1) d.jj
    ∧ (doTrial dbeta i d s).p (i - 1) d.jj = s.p i d.ii
    ∧ (doTrial dbeta i d s).logl i d.ii = s.logl (i - 1) d.jj
    ∧ (doTrial dbeta i d s).logl (i - 1) d.jj = s.logl i d.ii
    ∧ (doTrial dbeta i d s).lnprob (i - 1) d.jj
        = s.lnprob i d.ii + dbeta * s.logl i d.ii
    ∧ (doTrial dbeta i d s).lnprob i d.ii
        = s.lnprob (i - 1) d.jj - dbeta * s.logl (i - 1) d.jj := by
  have hne : i - 1 ≠ i := by omega
  have hcond : ¬(i = i - 1 ∧ d.ii = d.jj) := fun hc => hne hc.1.symm
  have hcond2 : ¬(i - 1 = i ∧ d.jj = d.ii) := fun hc => hne hc.1
  simp only [doTrial]
  rw [if_pos hacc]
  simp only [upd2]
  refine ⟨?_, ?_, ?_, ?_, ?_, ?_⟩ <;> simp [hcond, hcond2]

/-- Concrete instance of the accepted swap state exchange. -/
theorem accepted_swap_exchanges_state_witness :
    (doTrial 1 1 ⟨0, 0, -1⟩
        (initState (fun r _ => (r : ℚ)) (fun r _ => (r : ℚ)) (fun r _ => (r : ℚ)))).lnprob 0 0
      = (initState (fun r _ => (r : ℚ)) (fun r _ => (r : ℚ)) (fun r _ => (r : ℚ))).lnprob 1 0
        + 1 * (initState (fun r _ => (r : ℚ)) (fun r _ => (r : ℚ)) (fun r _ => (r : ℚ))).logl 1 0 :=
  (accepted_swap_exchanges_state 1 1 (by decide) ⟨0, 0, -1⟩
    (initState (fun r _ => (r : ℚ)) (fun r _ => (r : ℚ)) (fun r _ => (r : ℚ)))
    (Or.inl (by norm_num [initState]))).2.2.2.2.1

/-- C6: the tempered-posterior evaluation returns
`(beta*lnlike(x) + lnprior(x), lnlike(x))` whenever the prior is feasible,
and when the log-prior is negative infinity it returns `(-inf, -inf)`
independently of the likelihood function, which is never consulted. -/
theorem PTPost_call_contract {X : Type} (logl logp : X → LogVal) (beta : ℚ)
    (x : X) :
    (logp x ≠ LogVal.negInf →
      PTPost_call logl logp beta x
        = (LogVal.add (LogVal.smul beta (logl x)) (logp x), logl x))
    ∧ (logp x = LogVal.negInf →
      PTPost_call logl logp beta x = (LogVal.negInf, LogVal.negInf)
      ∧ ∀ logl2 : X → LogVal,
          PTPost_call logl2 logp beta x = (LogVal.negInf, LogVal.negInf)) := by
  constructor
  · intro h
    simp [PTPost_call, h]
  · intro h
    constructor
    · simp [PTPost_call, h]
    · intro logl2
      simp [PTPost_call, h]

/-- Concrete instances of both branches of the tempered-posterior
contract. -/
theorem PTPost_call_contract_witness :
    PTPost_call (fun _ : Unit => LogVal.fin 2) (fun _ => LogVal.fin 5) 3 ()
      = (LogVal.add (LogVal.smul 3 (LogVal.fin 2)) (LogVal.fin 5), LogVal.fin 2)
    ∧ PTPost_call (fun _ : Unit => LogVal.fin 2) (fun _ => LogVal.negInf) 3 ()
      = (LogVal.negInf, LogVal.negInf) :=
  ⟨(PTPost_call_contract (fun _ : Unit => LogVal.fin 2) (fun _ => LogVal.fin 5) 3 ()).1
      (by decide),
    ((PTPost_call_contract (fun _ : Unit => LogVal.fin 2) (fun _ => LogVal.negInf) 3 ()).2
      rfl).1⟩

/-- C3: with 10 recorded steps and the default burn-in fraction one half,
the code's start index `int(10*0.5) + 1 = 6` keeps only 4 steps, while
discarding exactly the first `fburnin` fraction would keep
`10 - floor(10*0.5) = 5`; the source also ends the function body right
after the per-rung means, so no trapezoidal integration is reached. -/
theorem ti_burnin_discards_extra_step :
    ti_istart 10 (1 / 2) = 6
    ∧ (10 : ℤ) - ti_istart 10 (1 / 2) = 4
    ∧ (10 : ℤ) - Int.floor ((10 : ℚ) * (1 / 2)) = 5
    ∧ (4 : ℤ) ≠ 5 := by
  refine ⟨?_, ?_, ?_, by decide⟩ <;> norm_num [ti_istart]

/-- The ladder entry formula: entry `k` of the exponential ladder is
`exp(-k*ln(2)/2)`. -/
theorem exponential_beta_ladder_getD (ntemps k : Nat) (hk : k < ntemps) :
    (exponential_beta_ladder ntemps).getD k 0
      = Real.exp (-((k : ℝ) * Real.log 2 / 2)) := by
  have hlen : k < (exponential_beta_ladder ntemps).length := by
    simp only [exponential_beta_ladder, linspace, List.length_map, List.length_range]
    exact hk
  rw [List.getD_eq_getElem _ _ hlen]
  simp only [exponential_beta_ladder, linspace, List.getElem_map, List.getElem_range]
  congr 1
  by_cases hn : ntemps = 1
  · subst hn
    have hk0 : k = 0 := by omega
    subst hk0
    norm_num
  · have hgt : 1 < (ntemps : ℝ) := by exact_mod_cast (by omega : 1 < ntemps)
    have hne : ((ntemps : ℝ) - 1) ≠ 0 := sub_ne_zero.mpr (ne_of_gt hgt)
    field_simp
    ring

/-- C7: for every `ntemps ≥ 1` the default ladder has `ntemps` entries,
entry `k` equals `exp(-k*ln(2)/2)`, entry 0 equals 1, and the entries are
strictly decreasing. -/
theorem exponential_beta_ladder_spec (ntemps : Nat) (h : 1 ≤ ntemps) :
    (exponential_beta_ladder ntemps).length = ntemps
    ∧ (∀ k, k < ntemps →
        (exponential_beta_ladder ntemps).getD k 0
          = Real.exp (-((k : ℝ) * Real.log 2 / 2)))
    ∧ (exponential_beta_ladder ntemps).getD 0 0 = 1
    ∧ ∀ k, k + 1 < ntemps →
        (exponential_beta_ladder ntemps).getD (k + 1) 0
          < (exponential_beta_ladder ntemps).getD k 0 := by
  refine ⟨?_, fun k hk => exponential_beta_ladder_getD ntemps k hk, ?_, ?_⟩
  · simp [exponential_beta_ladder, linspace]
  · rw [exponential_beta_ladder_getD ntemps 0 (by omega)]
    norm_num
  · intro k hk
    rw [exponential_beta_ladder_getD ntemps (k + 1) hk,
      exponential_beta_ladder_getD ntemps k (by omega)]
    have hL : 0 < Real.log 2 := Real.log_pos (by norm_num)
    apply Real.exp_lt_exp.mpr
    push_cast
    nlinarith [hL]

/-- Concrete instance: the three-rung ladder starts at 1. -/
theorem exponential_beta_ladder_spec_witness :
    (exponential_beta_ladder 3).getD 0 0 = 1 :=
  (exponential_beta_ladder_spec 3 (by norm_num)).2.2.1

/-- The reversed Python range has `m` entries. -/
theorem rangeDown_length (m : Nat) : (rangeDown m).length = m := by
  induction m with
  | zero => rfl
  | succ n ih => simp [rangeDown, ih]

/-- Entry `k` of the reversed Python range counts down from `m`. -/
theorem rangeDown_getD (m : Nat) : ∀ k, k < m → (rangeDown m).getD k 0 = m - k := by
  induction m with
  | zero => intro k hk; omega
  | succ n ih =>
    intro k hk
    cases k with
    | zero => simp [rangeDown]
    | succ k2 =>
      have hcons : (rangeDown (n + 1)).getD (k2 + 1) 0 = (rangeDown n).getD k2 0 := rfl
      rw [hcons, ih k2 (by omega)]
      omega

/-- The reversed Python range is the reversal of `[1, ..., m]`. -/
theorem rangeDown_eq_reverse_range (m : Nat) :
    rangeDown m = (List.range' 1 m).reverse := by
  induction m with
  | zero => rfl
  | succ n ih =>
    rw [List.range'_1_concat, List.reverse_append]
    simp [rangeDown, ih, Nat.add_comm]

/-- A boundary sweep bumps the attempted counters of both adjacent rungs
once per trial and no others. -/
theorem boundarySweep_nswap {α : Type} (betas : Nat → ℚ) (i : Nat) (hi : 1 ≤ i) :
    ∀ (dl : List TrialDraw) (t : SwapState α),
      (boundarySweep betas i dl t).nswap i = t.nswap i + dl.length
      ∧ (boundarySweep betas i dl t).nswap (i - 1) = t.nswap (i - 1) + dl.length := by
  have hne : i - 1 ≠ i := by omega
  have hne2 : i ≠ i - 1 := by omega
  intro dl
  induction dl with
  | nil => intro t; simp [boundarySweep]
  | cons d ds ih =>
    intro t
    have hstep := doTrial_nswap (betas (i - 1) - betas i) i d t
    have hrest := ih (doTrial (betas (i - 1) - betas i) i d t)
    have hsweep : boundarySweep betas i (d :: ds) t
        = boundarySweep betas i ds (doTrial (betas (i - 1) - betas i) i d t) := rfl
    rw [hsweep]
    constructor
    · rw [hrest.1, hstep, bump_other _ hne2, bump_same, List.length_cons]
      omega
    · rw [hrest.2, hstep, bump_same, bump_other _ hne, List.length_cons]
      omega

/-- A trial is accepted (its accepted counter bumps) exactly when
`paccept > 0` or `log(u) < paccept`. -/
theorem doTrial_accept_iff {α : Type} (betas : Nat → ℚ) (i : Nat) (hi : 1 ≤ i)
    (d : TrialDraw) (t : SwapState α) :
    ((doTrial (betas (i - 1) - betas i) i d t).nswap_accepted i
        = t.nswap_accepted i + 1)
    ↔ ((betas (i - 1) - betas i) * (t.logl i d.ii - t.logl (i - 1) d.jj) > 0
        ∨ d.logu < (betas (i - 1) - betas i) * (t.logl i d.ii - t.logl (i - 1) d.jj)) := by
  have hne2 : i ≠ i - 1 := by omega
  constructor
  · intro h
    by_contra hrej
    rw [doTrial_rejected_counters _ _ _ _ hrej] at h
    omega
  · intro hacc
    rw [doTrial_accepted_counters _ _ _ _ hacc, bump_other _ hne2, bump_same]

/-- C1: one exchange call processes the boundaries once each in the order
`ntemps-1` down to 1 (the processed list has `ntemps-1` entries, entry `k`
being boundary `ntemps-1-k`, so the call is the fold of the boundary
sweeps over that descending list); each boundary sweep performs exactly
`nwalkers` trials, bumping both adjacent attempted counters by `nwalkers`;
and a trial with draw `(ii, jj, logu)` is accepted exactly when
`paccept = dbeta*(logl[i,ii] - logl[i-1,jj]) > 0` or `logu < paccept`,
where `dbeta = betas[i-1] - betas[i]`. -/
theorem temperature_swaps_structure {α : Type} (betas : Nat → ℚ)
    (ntemps nwalkers : Nat) (draws : Nat → List TrialDraw)
    (hdr : ∀ i, (draws i).length = nwalkers) (s : SwapState α) :
    ((rangeDown (ntemps - 1)).length = ntemps - 1
      ∧ (∀ k, k < ntemps - 1 → (rangeDown (ntemps - 1)).getD k 0 = ntemps - 1 - k))
    ∧ temperature_swaps betas ntemps draws s
        = ((List.range' 1 (ntemps - 1)).reverse).foldl
            (fun t i => boundarySweep betas i (draws i) t) s
    ∧ (∀ i (t : SwapState α), 1 ≤ i →
        (boundarySweep betas i (draws i) t).nswap i = t.nswap i + nwalkers
        ∧ (boundarySweep betas i (draws i) t).nswap (i - 1)
            = t.nswap (i - 1) + nwalkers)
    ∧ ∀ i (t : SwapState α) (d : TrialDraw), 1 ≤ i →
        (((doTrial (betas (i - 1) - betas i) i d t).nswap_accepted i
            = t.nswap_accepted i + 1)
          ↔ ((betas (i - 1) - betas i) * (t.logl i d.ii - t.logl (i - 1) d.jj) > 0
            ∨ d.logu < (betas (i - 1) - betas i)
                * (t.logl i d.ii - t.logl (i - 1) d.jj))) := by
  refine ⟨⟨rangeDown_length _, fun k hk => rangeDown_getD _ k hk⟩, ?_, ?_, ?_⟩
  · rw [temperature_swaps, rangeDown_eq_reverse_range]
  · intro i t hi
    have hcount := boundarySweep_nswap betas i hi (draws i) t
    rw [hdr i] at hcount
    exact hcount
  · intro i t d hi
    exact doTrial_accept_iff betas i hi d t

/-- Concrete instance of the boundary trial count. -/
theorem temperature_swaps_structure_witness :
    (boundarySweep (fun _ => (0 : ℚ)) 1 [(⟨0, 0, -1⟩ : TrialDraw)]
        (initState (fun _ _ => (0 : ℚ)) (fun _ _ => 0) (fun _ _ => 0))).nswap 1
      = (initState (fun _ _ => (0 : ℚ)) (fun _ _ => 0) (fun _ _ => 0)).nswap 1 + 1 :=
  ((temperature_swaps_structure (fun _ => 0) 2 1 (fun _ => [⟨0, 0, -1⟩])
      (fun _ => rfl) (initState (fun _ _ => (0 : ℚ)) (fun _ _ => 0) (fun _ _ => 0))).2.2.1 1
    (initState (fun _ _ => (0 : ℚ)) (fun _ _ => 0) (fun _ _ => 0)) (by decide)).1

/-- The iteration loop equals writing the recorded values consecutively
from the write cursor while iterating the state. -/
theorem runIters_eq {σ α : Type} (step : σ → σ) (snap : σ → α) (thin : Nat) :
    ∀ (n i : Nat) (s : σ) (buf : List (Option α)) (isave : Nat),
      runIters step snap thin n i s buf isave
        = (writeAll buf isave (recordedVals step snap thin i s n), step^[n] s) := by
  intro n
  induction n with
  | zero =>
    intro i s buf isave
    simp [runIters, recordedVals, writeAll]
  | succ m ih =>
    intro i s buf isave
    by_cases hc : (i + 1) % thin = 0
    · have h1 : runIters step snap thin (m + 1) i s buf isave
          = runIters step snap thin m (i + 1) (step s)
              (buf.set isave (some (snap (step s)))) (isave + 1) := by
        simp only [runIters]
        rw [if_pos hc]
      have h2 : recordedVals step snap thin i s (m + 1)
          = snap (step s) :: recordedVals step snap thin (i + 1) (step s) m := by
        simp only [recordedVals]
        rw [if_pos hc]
        rfl
      rw [h1, ih, h2, Function.iterate_succ_apply]
      rfl
    · have h1 : runIters step snap thin (m + 1) i s buf isave
          = runIters step snap thin m (i + 1) (step s) buf isave := by
        simp only [runIters]
        rw [if_neg hc]
      have h2 : recordedVals step snap thin i s (m + 1)
          = recordedVals step snap thin (i + 1) (step s) m := by
        simp only [recordedVals]
        rw [if_neg hc]
        rfl
      rw [h1, ih, h2, Function.iterate_succ_apply]

/-- Writing values into a buffer preserves its length. -/
theorem writeAll_length {α : Type} :
    ∀ (xs : List α) (buf : List (Option α)) (k : Nat),
      (writeAll buf k xs).length = buf.length := by
  intro xs
  induction xs with
  | nil => intro buf k; rfl
  | cons x t ih =>
    intro buf k
    simp only [writeAll]
    rw [ih]
    simp

/-- Slots strictly below the write start are untouched. -/
theorem writeAll_getElem_lt {α : Type} :
    ∀ (xs : List α) (buf : List (Option α)) (k j : Nat), j < k →
      (writeAll buf k xs)[j]? = buf[j]? := by
  intro xs
  induction xs with
  | nil => intro buf k j hj; rfl
  | cons x t ih =>
    intro buf k j hj
    simp only [writeAll]
    rw [ih (buf.set k (some x)) (k + 1) j (by omega)]
    exact List.getElem?_set_ne (by omega)

/-- Slot `k + m` of the written buffer holds the `m`-th written value. -/
theorem writeAll_getElem_at {α : Type} :
    ∀ (xs : List α) (buf : List (Option α)) (k m : Nat) (hm : m < xs.length),
      k + m < buf.length →
      (writeAll buf k xs)[k + m]? = some (some (xs.get ⟨m, hm⟩)) := by
  intro xs
  induction xs with
  | nil =>
    intro buf k m hm hlen
    exact absurd hm (Nat.not_lt_zero m)
  | cons x t ih =>
    intro buf k m hm hlen
    simp only [writeAll]
    cases m with
    | zero =>
      rw [writeAll_getElem_lt t (buf.set k (some x)) (k + 1) (k + 0) (by omega)]
      have hkk : (buf.set k (some x))[k + 0]? = (buf.set k (some x))[k]? := by
        congr 1
      rw [hkk, List.getElem?_set_self (by omega)]
      rfl
    | succ m2 =>
      have hm2 : m2 < t.length := by
        have hx := hm
        simp only [List.length_cons] at hx
        omega
      have hlen2 : (k + 1) + m2 < (buf.set k (some x)).length := by
        simp only [List.length_set]
        omega
      have harith : k + (m2 + 1) = (k + 1) + m2 := by omega
      rw [harith, ih (buf.set k (some x)) (k + 1) m2 hm2 hlen2]
      rfl

/-- Peeling the last iteration off the recorded values. -/
theorem recordedVals_snoc {σ α : Type} (step : σ → σ) (snap : σ → α) (thin : Nat) :
    ∀ (n i : Nat) (s : σ),
      recordedVals step snap thin i s (n + 1)
        = recordedVals step snap thin i s n
          ++ (if (i + n + 1) % thin = 0 then [snap (step^[n + 1] s)] else []) := by
  intro n
  induction n with
  | zero =>
    intro i s
    simp [recordedVals]
  | succ m ih =>
    intro i s
    have hl : recordedVals step snap thin i s (m + 1 + 1)
        = (if (i + 1) % thin = 0 then [snap (step s)] else [])
          ++ recordedVals step snap thin (i + 1) (step s) (m + 1) := rfl
    have hr : recordedVals step snap thin i s (m + 1)
        = (if (i + 1) % thin = 0 then [snap (step s)] else [])
          ++ recordedVals step snap thin (i + 1) (step s) m := rfl
    rw [hl, ih (i + 1) (step s), hr, List.append_assoc]
    have hidx : i + 1 + m + 1 = i + (m + 1) + 1 := by omega
    have hit : step^[m + 1] (step s) = step^[m + 1 + 1] s :=
      (Function.iterate_succ_apply step (m + 1) s).symm
    rw [hidx, hit]

/-- With the iteration counter started at zero, the recorded values of `n`
iterations are the states after `thin, 2*thin, ...` iterations: one value
for each of the `n / thin` multiples of `thin` in range. -/
theorem recordedVals_zero_start {σ α : Type} (step : σ → σ) (snap : σ → α)
    (thin : Nat) :
    ∀ (n : Nat) (s : σ),
      recordedVals step snap thin 0 s n
        = (List.range (n / thin)).map (fun m => snap (step^[(m + 1) * thin] s)) := by
  intro n
  induction n with
  | zero => intro s; simp [recordedVals, Nat.zero_div]
  | succ m ih =>
    intro s
    rw [recordedVals_snoc step snap thin m 0 s, ih s]
    by_cases hd : thin ∣ (m + 1)
    · have hdiv : (m + 1) / thin = m / thin + 1 := Nat.succ_div_of_dvd hd
      have hmod : (0 + m + 1) % thin = 0 := by
        obtain ⟨c, hc⟩ := hd
        simp [hc, Nat.mul_mod_right]
      have hmul : (m / thin + 1) * thin = m + 1 := by
        rw [← hdiv]
        exact Nat.div_mul_cancel hd
      rw [if_pos hmod, hdiv, List.range_succ, List.map_append]
      simp [hmul]
    · have hmod : ¬ (0 + m + 1) % thin = 0 := fun hc =>
        hd (Nat.dvd_of_mod_eq_zero (by simpa using hc))
      rw [if_neg hmod, Nat.succ_div_of_not_dvd hd, List.append_nil]

/-- One stored-chain call grows the buffer by exactly `iterations / thin`
slots. -/
theorem sample_call_length {σ α : Type} (step : σ → σ) (snap : σ → α)
    (iterations thin : Nat) (s : σ) (chain : List (Option α)) :
    (sample_call step snap iterations thin s chain).1.length
      = chain.length + iterations / thin := by
  simp only [sample_call]
  rw [runIters_eq]
  simp [writeAll_length]

/-- One stored-chain call leaves the previously recorded slots unchanged. -/
theorem sample_call_prefix {σ α : Type} (step : σ → σ) (snap : σ → α)
    (iterations thin : Nat) (s : σ) (chain : List (Option α)) (j : Nat)
    (hj : j < chain.length) :
    (sample_call step snap iterations thin s chain).1[j]? = chain[j]? := by
  simp only [sample_call]
  rw [runIters_eq]
  rw [writeAll_getElem_lt _ _ _ _ hj]
  exact List.getElem?_append_left hj

/-- After any sequence of stored-chain calls, the buffer length is the
initial length plus the sum of the per-call `iterations / thin`. -/
theorem sample_calls_length {σ α : Type} (step : σ → σ) (snap : σ → α) :
    ∀ (calls : List (Nat × Nat)) (s : σ) (chain : List (Option α)),
      (sample_calls step snap calls s chain).1.length
        = chain.length + (calls.map (fun c => c.1 / c.2)).sum := by
  intro calls
  induction calls with
  | nil => intro s chain; simp [sample_calls]
  | cons c cs ih =>
    intro s chain
    have hstep : sample_calls step snap (c :: cs) s chain
        = sample_calls step snap cs (sample_call step snap c.1 c.2 s chain).2
            (sample_call step snap c.1 c.2 s chain).1 := rfl
    rw [hstep, ih, sample_call_length]
    simp only [List.map_cons, List.sum_cons]
    omega

/-- Entries recorded before any later sequence of calls are preserved
unchanged by those calls. -/
theorem sample_calls_prefix {σ α : Type} (step : σ → σ) (snap : σ → α) :
    ∀ (calls : List (Nat × Nat)) (s : σ) (chain : List (Option α)) (j : Nat),
      j < chain.length →
      (sample_calls step snap calls s chain).1[j]? = chain[j]? := by
  intro calls
  induction calls with
  | nil => intro s chain j hj; rfl
  | cons c cs ih =>
    intro s chain j hj
    have hstep : sample_calls step snap (c :: cs) s chain
        = sample_calls step snap cs (sample_call step snap c.1 c.2 s chain).2
            (sample_call step snap c.1 c.2 s chain).1 := rfl
    have hj2 : j < (sample_call step snap c.1 c.2 s chain).1.length := by
      rw [sample_call_length]
      exact lt_of_lt_of_le hj (Nat.le_add_right _ _)
    rw [hstep, ih _ _ j hj2]
    exact sample_call_prefix step snap c.1 c.2 s chain j hj

/-- Within one call, the `m`-th newly recorded slot holds the state after
`(m+1)*thin` iterations of that call. -/
theorem sample_call_recorded {σ α : Type} (step : σ → σ) (snap : σ → α)
    (iterations thin : Nat) (s : σ) (chain : List (Option α)) (m : Nat)
    (hm : m < iterations / thin) :
    (sample_call step snap iterations thin s chain).1[chain.length + m]?
      = some (some (snap (step^[(m + 1) * thin] s))) := by
  simp only [sample_call]
  rw [runIters_eq, recordedVals_zero_start step snap thin iterations s]
  have hxlen : m < ((List.range (iterations / thin)).map
      (fun m2 => snap (step^[(m2 + 1) * thin] s))).length := by
    simpa using hm
  have hblen : chain.length + m
      < (chain ++ List.replicate (iterations / thin) (none : Option α)).length := by
    simp only [List.length_append, List.length_replicate]
    omega
  rw [writeAll_getElem_at _ _ _ _ hxlen hblen]
  simp

/-- C4: with chain storage enabled, after a sequence of calls with
parameters `(iterations, thin)` the stored-step axis of the chain buffer
has length equal to the sum of the per-call `iterations / thin`; every
entry recorded before later calls is preserved unchanged by them; and
within one call the `m`-th newly recorded slot (at offset `chain.length +
m`) holds the state after `(m+1)*thin` iterations of that call, so exactly
`iterations / thin` steps are recorded, at steps `thin, 2*thin, ...`. -/
theorem sample_chain_layout {σ α : Type} (step : σ → σ) (snap : σ → α) :
    (∀ (calls : List (Nat × Nat)) (s : σ) (chain : List (Option α)),
      (sample_calls step snap calls s chain).1.length
        = chain.length + (calls.map (fun c => c.1 / c.2)).sum)
    ∧ (∀ (calls : List (Nat × Nat)) (s : σ) (chain : List (Option α)) (j : Nat),
        j < chain.length →
        (sample_calls step snap calls s chain).1[j]? = chain[j]?)
    ∧ ∀ (iterations thin : Nat) (s : σ) (chain : List (Option α)) (m : Nat),
        m < iterations / thin →
        (sample_call step snap iterations thin s chain).1[chain.length + m]?
          = some (some (snap (step^[(m + 1) * thin] s))) :=
  ⟨sample_calls_length step snap, sample_calls_prefix step snap,
    fun iterations thin s chain m hm =>
      sample_call_recorded step snap iterations thin s chain m hm⟩

/-- Concrete instance: 5 iterations with thin 2 record the states after
iterations 2 and 4; slot 0 of the fresh chain holds the state after 2
steps. -/
theorem sample_chain_layout_witness :
    (sample_call (fun n : Nat => n + 1) (fun n : Nat => n) 5 2 0
        ([] : List (Option Nat))).1[([] : List (Option Nat)).length + 0]?
      = some (some ((fun n : Nat => n + 1)^[(0 + 1) * 2] 0)) :=
  (sample_chain_layout (fun n : Nat => n + 1) (fun n : Nat => n)).2.2 5 2 0 [] 0
    (by decide)

/-- Positions before `ntemps` in an iteration trace hold the rung
advances, in rung order. -/
theorem iterationTrace_getElem_lt (ntemps : Nat) (store : Bool) (thin i j : Nat)
    (hj : j < ntemps) :
    (iterationTrace ntemps store thin i)[j]? = some (SampleEv.adv j) := by
  have hlen : j < ((List.range ntemps).map SampleEv.adv).length := by simpa using hj
  simp only [iterationTrace]
  rw [List.getElem?_append_left (by simp; omega),
    List.getElem?_append_left (by simp; omega),
    List.getElem?_append_left hlen]
  simp [hj]

/-- Position `ntemps` of an iteration trace is the exchange event. -/
theorem iterationTrace_getElem_exch (ntemps : Nat) (store : Bool) (thin i : Nat) :
    (iterationTrace ntemps store thin i)[ntemps]? = some SampleEv.exch := by
  simp only [iterationTrace]
  rw [List.getElem?_append_left (by simp),
    List.getElem?_append_left (by simp),
    List.getElem?_append_right (by simp)]
  simp

/-- Events after position `ntemps` of an iteration trace are only the
recording and the yield. -/
theorem iterationTrace_getElem_gt (ntemps : Nat) (store : Bool) (thin i k : Nat)
    (hk : ntemps < k) (e : SampleEv)
    (he : (iterationTrace ntemps store thin i)[k]? = some e) :
    e = SampleEv.record ∨ e = SampleEv.yld := by
  simp only [iterationTrace] at he
  by_cases hlt : k < (((List.range ntemps).map SampleEv.adv ++ [SampleEv.exch])
      ++ (if (i + 1) % thin = 0 then
            (if store = true then [SampleEv.record] else []) else [])).length
  · rw [List.getElem?_append_left hlt,
      List.getElem?_append_right (by simp; omega)] at he
    have hmem := List.getElem?_mem he
    left
    split_ifs at hmem <;> simp_all
  · rw [List.getElem?_append_right (Nat.le_of_not_lt hlt)] at he
    have hmem := List.getElem?_mem he
    right
    simpa using hmem

/-- C5: in every iteration of the sample loop, the trace consists of the
`ntemps` rung advances at positions `0, ..., ntemps-1`, the temperature
exchange exactly at position `ntemps` and nowhere else, advances nowhere
else, and the recording and yield events strictly after the exchange: the
exchange always runs after all rungs have advanced and before the state is
recorded or yielded. -/
theorem exchange_after_advances_before_record (ntemps iterations thin : Nat)
    (storechain : Bool) :
    sampleTrace ntemps iterations thin storechain
      = (List.range iterations).flatMap
          (fun i => iterationTrace ntemps storechain thin i)
    ∧ ∀ i : Nat,
      (∀ j, j < ntemps →
        (iterationTrace ntemps storechain thin i)[j]? = some (SampleEv.adv j))
      ∧ (iterationTrace ntemps storechain thin i)[ntemps]? = some SampleEv.exch
      ∧ (∀ k, (iterationTrace ntemps storechain thin i)[k]? = some SampleEv.exch →
          k = ntemps)
      ∧ (∀ k r, (iterationTrace ntemps storechain thin i)[k]? = some (SampleEv.adv r) →
          k < ntemps ∧ r = k)
      ∧ (∀ k e, (iterationTrace ntemps storechain thin i)[k]? = some e →
          e = SampleEv.record ∨ e = SampleEv.yld → ntemps < k) := by
  refine ⟨rfl, ?_⟩
  intro i
  refine ⟨fun j hj => iterationTrace_getElem_lt ntemps storechain thin i j hj,
    iterationTrace_getElem_exch ntemps storechain thin i, ?_, ?_, ?_⟩
  · intro k hk
    rcases Nat.lt_trichotomy k ntemps with h | h | h
    · rw [iterationTrace_getElem_lt ntemps storechain thin i k h] at hk
      simp at hk
    · exact h
    · rcases iterationTrace_getElem_gt ntemps storechain thin i k h _ hk with h2 | h2 <;>
        simp at h2
  · intro k r hk
    rcases Nat.lt_trichotomy k ntemps with h | h | h
    · rw [iterationTrace_getElem_lt ntemps storechain thin i k h] at hk
      simp at hk
      exact ⟨h, hk.symm⟩
    · rw [h, iterationTrace_getElem_exch ntemps storechain thin i] at hk
      simp at hk
    · rcases iterationTrace_getElem_gt ntemps storechain thin i k h _ hk with h2 | h2 <;>
        simp at h2
  · intro k e hk he
    rcases Nat.lt_trichotomy k ntemps with h | h | h
    · rw [iterationTrace_getElem_lt ntemps storechain thin i k h] at hk
      rcases he with he | he <;> (subst he; simp at hk)
    · rw [h, iterationTrace_getElem_exch ntemps storechain thin i] at hk
      rcases he with he | he <;> (subst he; simp at hk)
    · exact h

/-- Concrete instance: with two rungs the exchange sits at position 2 of
the iteration trace. -/
theorem exchange_after_advances_before_record_witness :
    (iterationTrace 2 true 1 0)[2]? = some SampleEv.exch :=
  ((exchange_after_advances_before_record 2 1 1 true).2 0).2.1

/-- C10: running the sampler loop through the heap leaves the current
(advanced and swapped) triple in the arrays behind the caller's references
after every iteration, and every yielded triple is exactly those same three
references, so the caller's `p0` holds the current walker positions. -/
theorem sample_mutates_p0_in_place {V : Type} (stepFn : V × V × V → V × V × V)
    (rp rl rk : Nat) (hpl : rp ≠ rl) (hpk : rp ≠ rk) (hlk : rl ≠ rk)
    (σ : RefStore V) (n : Nat) :
    ((sampleRunInPlace stepFn rp rl rk σ n).mem rp,
      (sampleRunInPlace stepFn rp rl rk σ n).mem rl,
      (sampleRunInPlace stepFn rp rl rk σ n).mem rk)
      = stepFn^[n] (σ.mem rp, σ.mem rl, σ.mem rk)
    ∧ ∀ y ∈ sampleYields rp rl rk n, y = (rp, rl, rk) := by
  constructor
  · induction n with
    | zero => simp [sampleRunInPlace]
    | succ m ih =>
      rw [Function.iterate_succ_apply', ← ih]
      simp [sampleRunInPlace, sampleIterInPlace, RefStore.write,
        hpl, hpk, hlk, hpl.symm, hpk.symm, hlk.symm]
  · intro y hy
    simp only [sampleYields, List.mem_map] at hy
    obtain ⟨_, _, h⟩ := hy
    exact h.symm

/-- Concrete instance of the in-place mutation behaviour. -/
theorem sample_mutates_p0_in_place_witness :
    ((sampleRunInPlace (fun t : ℕ × ℕ × ℕ => (t.1 + 1, t.2.1, t.2.2)) 0 1 2 ⟨fun _ => 0⟩ 2).mem 0,
      (sampleRunInPlace (fun t : ℕ × ℕ × ℕ => (t.1 + 1, t.2.1, t.2.2)) 0 1 2 ⟨fun _ => 0⟩ 2).mem 1,
      (sampleRunInPlace (fun t : ℕ × ℕ × ℕ => (t.1 + 1, t.2.1, t.2.2)) 0 1 2 ⟨fun _ => 0⟩ 2).mem 2)
      = (fun t : ℕ × ℕ × ℕ => (t.1 + 1, t.2.1, t.2.2))^[2]
          ((⟨fun _ => 0⟩ : RefStore ℕ).mem 0, (⟨fun _ => 0⟩ : RefStore ℕ).mem 1,
            (⟨fun _ => 0⟩ : RefStore ℕ).mem 2) :=
  (sample_mutates_p0_in_place (fun t : ℕ × ℕ × ℕ => (t.1 + 1, t.2.1, t.2.2)) 0 1 2
    (by decide) (by decide) (by decide) ⟨fun _ => 0⟩ 2).1
